import Mathlib

/-!
Verification development for the stwo-sol-verifier transcoding layer
(`src/crates/contracts/src/lib.rs`).

The development shallowly embeds the two repository functions
`encode_decommitment_packed`, `convert_to_solidity_proof` and
`prepare_verification_params`, together with the data they traverse.
Machine integers (`u32`, `usize`, byte values) are modelled as `Nat`;
`isize` offsets are modelled as `Int`; a `FixedBytes<32>` digest is a
byte list of length 32; Rust `Vec` is `List`; a Rust panic is `none` of
an `Option`-valued embedding.
-/

namespace StwoSol

/-- Big-endian byte serialisation of a natural number into exactly `n` bytes,
truncating modulo `256 ^ n`.  Embeds `U256::to_be_bytes::<32>()` (with
`n = 32`) and `u32::to_be_bytes` (with `n = 4`). -/
def toBEBytes : Nat → Nat → List Nat
  | 0, _ => []
  | n + 1, k => toBEBytes n (k / 256) ++ [k % 256]

/-- Big-endian byte deserialisation, the decoding direction used to reason
about `toBEBytes`. -/
def fromBEBytes (l : List Nat) : Nat :=
  l.foldl (fun a b => 256 * a + b) 0

/-- A 32-byte digest: the model of `alloy_primitives::FixedBytes<32>` and of
the Keccak hash values `h.0` it is built from. -/
def Digest := { l : List Nat // l.length = 32 }

instance : DecidableEq Digest := Subtype.instDecidableEq

/-- Embeds `encode_decommitment_packed` (lib.rs lines 46-64): a fresh byte
vector receives the 32-byte big-endian hash count, each digest's raw bytes,
the 32-byte big-endian column count, then each column value as 4 big-endian
bytes.  The `foldl`s mirror the two `for` loops extending the vector. -/
def encode_decommitment_packed (hash_witness : List Digest)
    (column_witness : List Nat) : List Nat :=
  let encoded : List Nat := []
  let encoded := encoded ++ toBEBytes 32 hash_witness.length
  let encoded := hash_witness.foldl (fun acc w => acc ++ w.val) encoded
  let encoded := encoded ++ toBEBytes 32 column_witness.length
  let encoded := column_witness.foldl (fun acc v => acc ++ toBEBytes 4 v) encoded
  encoded

/-- The stwo library's `CM31` as the repository reads it: a pair of `M31`
values, each carrying a raw `u32` (accessed in Rust as `.0 .0` and `.1 .0`). -/
structure StwoCM31 where
  a0 : Nat
  a1 : Nat
deriving DecidableEq, Repr

/-- The stwo library's `QM31` (`SecureField`) as the repository reads it: a
pair of `CM31` values (accessed in Rust as `.0` and `.1`). -/
structure StwoQM31 where
  p0 : StwoCM31
  p1 : StwoCM31
deriving DecidableEq, Repr

instance : Inhabited StwoQM31 := ⟨⟨⟨0, 0⟩, ⟨0, 0⟩⟩⟩

/-- The Solidity-side `CM31Field.CM31` struct. -/
structure CM31 where
  real : Nat
  imag : Nat
deriving DecidableEq, Repr

/-- The Solidity-side `QM31Field.QM31` struct. -/
structure QM31 where
  first : CM31
  second : CM31
deriving DecidableEq, Repr

/-- The extension-field decomposition the transcoder applies at every call
site (e.g. lib.rs lines 94-103): build the Solidity `QM31` from the raw
components in the order `first.real = v.0.0.0`, `first.imag = v.0.1.0`,
`second.real = v.1.0.0`, `second.imag = v.1.1.0`. -/
def solQM31 (v : StwoQM31) : QM31 :=
  { first := { real := v.p0.a0, imag := v.p0.a1 }
    second := { real := v.p1.a0, imag := v.p1.a1 } }

/-- The field decomposition as a 4-tuple in the wire order used by every
transcoding call site: `(first.real, first.imag, second.real, second.imag)`. -/
def decompose (v : StwoQM31) : Nat × Nat × Nat × Nat :=
  (v.p0.a0, v.p0.a1, v.p1.a0, v.p1.a1)

/-- Rebuild an extension-field element from the four primitive integers using
the fixed positional convention of `decompose`. -/
def reconstruct (t : Nat × Nat × Nat × Nat) : StwoQM31 :=
  ⟨⟨t.1, t.2.1⟩, ⟨t.2.2.1, t.2.2.2⟩⟩

/-- Reversal of the low `k` bits of an index: bit `0` of `i` becomes bit
`k - 1` of the result, and so on.  This is the index map of the bit-reversal
permutation. -/
def bitRevIdx : Nat → Nat → Nat
  | 0, _ => 0
  | k + 1, i => i % 2 * 2 ^ k + bitRevIdx k (i / 2)

/-- Modelled from the spec: the external `stwo::core::utils::bit_reverse`
permutation invoked on the last-layer coefficients (its body is outside
`src/`); per the spec it moves the entry at index `bitRevIdx k i` of a
`2 ^ k`-length sequence to index `i`. -/
def bitReverseList [Inhabited α] (k : Nat) (l : List α) : List α :=
  (List.range (2 ^ k)).map fun i => l.getD (bitRevIdx k i) default

/-- Modelled from the spec: the external `bit_reverse` as called by the
transcoder asserts that the length is a power of two (a panic, modelled as
`none`) and otherwise applies `bitReverseList` at `k = log2 (length)`. -/
def bit_reverse [Inhabited α] (l : List α) : Option (List α) :=
  if l.length = 2 ^ l.length.log2 then some (bitReverseList l.length.log2 l) else none

/-- Embeds the Rust `offset as i32` cast from `isize` (lib.rs line 279):
truncation to the low 32 bits, reinterpreted as a signed 32-bit integer. -/
def castI32 (x : Int) : Int :=
  let m := x % (2 ^ 32 : Int)
  if m < 2 ^ 31 then m else m - 2 ^ 32

/-- The opaque `FrameworkComponent` capability set the repository reads:
`max_constraint_log_degree_bound()`, `log_size()`, `info.mask_offsets.0`
(per tree, per column, a list of `isize` row offsets), the
`info.preprocessed_columns` list (only its positions are used, so elements
are `Unit`), and `claimed_sum()`. -/
structure Component where
  max_constraint_log_degree_bound : Nat
  log_size : Nat
  mask_offsets : List (List (List Int))
  preprocessed_columns : List Unit
  claimed_sum : StwoQM31
deriving DecidableEq

/-- The Solidity-side `FrameworkComponentLib.ComponentInfo` struct. -/
structure ComponentInfo where
  maxConstraintLogDegreeBound : Nat
  logSize : Nat
  maskOffsets : List (List (List Int))
  preprocessedColumns : List Nat
deriving DecidableEq

/-- The Solidity-side `ComponentParams` struct. -/
structure ComponentParams where
  logSize : Nat
  claimedSum : QM31
  info : ComponentInfo
deriving DecidableEq

/-- The Solidity-side `VerificationParams` struct. -/
structure VerificationParams where
  componentParams : List ComponentParams
  nPreprocessedColumns : Nat
  componentsCompositionLogDegreeBound : Nat
deriving DecidableEq

/-- Modelled from the spec: the external pure aggregation primitive
`Components::composition_log_degree_bound` (stwo, outside `src/`); per the
spec it is a pure function of the component set, modelled as the maximum of
the components' max constraint log degree bounds (`0` for an empty set; the
spec treats the primitive as total and authoritative). -/
def composition_log_degree_bound (cs : List Component) : Nat :=
  (cs.map Component.max_constraint_log_degree_bound).foldr max 0

/-- The `ComponentInfo` record built for one component inside the loop of
`prepare_verification_params` (lib.rs lines 269-290). -/
def mkComponentInfo (comp : Component) : ComponentInfo :=
  { maxConstraintLogDegreeBound := comp.max_constraint_log_degree_bound
    logSize := comp.log_size
    maskOffsets :=
      comp.mask_offsets.map fun tree => tree.map fun col => col.map castI32
    preprocessedColumns := comp.preprocessed_columns.enum.map Prod.fst }

/-- The `ComponentParams` record built for one component inside the loop of
`prepare_verification_params` (lib.rs lines 291-304). -/
def mkComponentParams (comp : Component) : ComponentParams :=
  { logSize := (mkComponentInfo comp).logSize
    claimedSum := solQM31 comp.claimed_sum
    info := mkComponentInfo comp }

/-- Embeds `prepare_verification_params` (lib.rs lines 263-323): the loop
pushing one `ComponentParams` per component (mirrored by the `foldl`),
followed by the construction of `VerificationParams`; the function is
`Result`-valued in Rust but has no error return. -/
def prepare_verification_params (components : List Component)
    (n_preprocessed_columns : Nat) : Except String VerificationParams :=
  let component_params :=
    components.foldl (fun acc comp => acc ++ [mkComponentParams comp]) []
  Except.ok
    { componentParams := component_params
      nPreprocessedColumns := n_preprocessed_columns
      componentsCompositionLogDegreeBound := composition_log_degree_bound components }

/-- The `FriConfig` scalars of the proof config. -/
structure FriConfig where
  log_blowup_factor : Nat
  log_last_layer_degree_bound : Nat
  n_queries : Nat
deriving DecidableEq

/-- The `PcsConfig` scalars of the proof config. -/
structure Config where
  pow_bits : Nat
  fri_config : FriConfig
deriving DecidableEq

/-- A stwo Merkle decommitment: hash witness plus column witness. -/
structure StwoDecommitment where
  hash_witness : List Digest
  column_witness : List Nat
deriving DecidableEq

/-- A stwo FRI layer proof: witness values, a decommitment, a commitment. -/
structure StwoFriLayer where
  fri_witness : List StwoQM31
  decommitment : StwoDecommitment
  commitment : Digest
deriving DecidableEq

/-- A stwo FRI proof; `last_layer_poly` holds the last-layer polynomial's
coefficients in canonical order (the result of `into_ordered_coefficients`). -/
structure StwoFriProof where
  first_layer : StwoFriLayer
  inner_layers : List StwoFriLayer
  last_layer_poly : List StwoQM31
deriving DecidableEq

/-- The stwo `StarkProof` fields the transcoder reads. -/
structure StarkProof where
  config : Config
  commitments : List Digest
  sampled_values : List (List (List StwoQM31))
  decommitments : List StwoDecommitment
  queried_values : List (List Nat)
  proof_of_work : Nat
  fri_proof : StwoFriProof
deriving DecidableEq

/-- The Solidity-side `MerkleVerifier.Decommitment` struct. -/
structure SolDecommitment where
  hashWitness : List Digest
  columnWitness : List Nat
deriving DecidableEq

/-- The Solidity-side `FriVerifier.FriLayerProof` struct; `decommitment` is
the packed byte string. -/
structure SolFriLayerProof where
  friWitness : List QM31
  decommitment : List Nat
  commitment : Digest
deriving DecidableEq

/-- The Solidity-side `FriVerifier.FriProof` struct. -/
structure SolFriProof where
  innerLayers : List SolFriLayerProof
  lastLayerPoly : List QM31
  firstLayer : SolFriLayerProof
deriving DecidableEq

/-- The Solidity-side `ProofParser.CompositionPoly` struct: exactly four
fixed coefficient slots. -/
structure CompositionPoly where
  coeffs0 : List Nat
  coeffs1 : List Nat
  coeffs2 : List Nat
  coeffs3 : List Nat
deriving DecidableEq

/-- The Solidity-side `ProofParser.Proof` struct. -/
structure SolProof where
  config : Config
  commitments : List Digest
  sampledValues : List (List (List QM31))
  decommitments : List SolDecommitment
  queriedValues : List (List Nat)
  proofOfWork : Nat
  friProof : SolFriProof
  compositionPoly : CompositionPoly
deriving DecidableEq

/-- The transcoding of one stwo FRI layer into a Solidity `FriLayerProof`
(lib.rs lines 124-157 and 159-195): decompose every witness element, pack
the decommitment, copy the commitment. -/
def solFriLayer (layer : StwoFriLayer) : SolFriLayerProof :=
  { friWitness := layer.fri_witness.map solQM31
    decommitment :=
      encode_decommitment_packed layer.decommitment.hash_witness
        layer.decommitment.column_witness
    commitment := layer.commitment }

/-- Embeds `convert_to_solidity_proof` (lib.rs lines 66-261).  The
composition polynomial argument is the intermediate
`composition_polynomial_to_solidity : Vec<Vec<u32>>` of lines 224-235 (the
per-coordinate coefficient arrays after SIMD lane flattening).  The two Rust
panic sites are modelled as `none`: the power-of-two assertion inside
`bit_reverse`, and the direct indexing `[0] .. [3]` into the coordinate
array list at lines 238-241 (out-of-bounds when fewer than four arrays are
present; any array beyond the fourth is ignored). -/
def convert_to_solidity_proof (proof : StarkProof)
    (composition_polynomial : List (List Nat)) : Option SolProof :=
  match bit_reverse proof.fri_proof.last_layer_poly with
  | none => none
  | some coeffs =>
    match composition_polynomial[0]?, composition_polynomial[1]?,
        composition_polynomial[2]?, composition_polynomial[3]? with
    | some c0, some c1, some c2, some c3 =>
      some
        { config := proof.config
          commitments := proof.commitments
          sampledValues :=
            proof.sampled_values.map fun column => column.map fun row => row.map solQM31
          decommitments :=
            proof.decommitments.map fun decom =>
              { hashWitness := decom.hash_witness
                columnWitness := decom.column_witness }
          queriedValues := proof.queried_values
          proofOfWork := proof.proof_of_work
          friProof :=
            { innerLayers := proof.fri_proof.inner_layers.map solFriLayer
              lastLayerPoly := coeffs.map solQM31
              firstLayer := solFriLayer proof.fri_proof.first_layer }
          compositionPoly :=
            { coeffs0 := c0, coeffs1 := c1, coeffs2 := c2, coeffs3 := c3 } }
    | _, _, _, _ => none

/-! Helper lemmas about the byte-level encoding. -/

theorem toBEBytes_length (n k : Nat) : (toBEBytes n k).length = n := by
  induction n generalizing k with
  | zero => rfl
  | succ n ih => simp [toBEBytes, ih]

theorem fromBEBytes_snoc (l : List Nat) (b : Nat) :
    fromBEBytes (l ++ [b]) = 256 * fromBEBytes l + b := by
  simp [fromBEBytes, List.foldl_append]

theorem fromBEBytes_toBEBytes (n k : Nat) :
    fromBEBytes (toBEBytes n k) = k % 256 ^ n := by
  induction n generalizing k with
  | zero => simp [toBEBytes, fromBEBytes, Nat.mod_one]
  | succ n ih =>
    rw [toBEBytes, fromBEBytes_snoc, ih, pow_succ', Nat.mod_mul]
    ring

theorem toBEBytes_inj {n a b : Nat} (ha : a < 256 ^ n) (hb : b < 256 ^ n)
    (h : toBEBytes n a = toBEBytes n b) : a = b := by
  have h2 := congrArg fromBEBytes h
  rwa [fromBEBytes_toBEBytes, fromBEBytes_toBEBytes, Nat.mod_eq_of_lt ha,
    Nat.mod_eq_of_lt hb] at h2

theorem foldl_append_eq_flatten {α β : Type} (f : α → List β) (l : List α)
    (init : List β) :
    l.foldl (fun acc x => acc ++ f x) init = init ++ (l.map f).flatten := by
  induction l generalizing init with
  | nil => simp
  | cons x xs ih => simp [ih, List.append_assoc]

/-- The packed encoding rewritten as one flat concatenation. -/
theorem encode_decommitment_packed_eq (hs : List Digest) (cs : List Nat) :
    encode_decommitment_packed hs cs =
      toBEBytes 32 hs.length ++ (hs.map Subtype.val).flatten ++
        (toBEBytes 32 cs.length ++ (cs.map (toBEBytes 4)).flatten) := by
  simp only [encode_decommitment_packed, foldl_append_eq_flatten,
    List.append_assoc, List.nil_append]

theorem digest_flatten_length (hs : List Digest) :
    ((hs.map Subtype.val).flatten).length = 32 * hs.length := by
  induction hs with
  | nil => rfl
  | cons d ds ih =>
    simp only [List.map_cons, List.flatten_cons, List.length_append, ih, d.property,
      List.length_cons]
    ring

theorem be4_flatten_length (cs : List Nat) :
    ((cs.map (toBEBytes 4)).flatten).length = 4 * cs.length := by
  induction cs with
  | nil => rfl
  | cons v vs ih =>
    simp only [List.map_cons, List.flatten_cons, List.length_append, ih,
      toBEBytes_length, List.length_cons]
    ring

/-- C4: `encode_decommitment_packed` emits the 32-byte big-endian hash count,
the digests' raw bytes in order, the 32-byte big-endian column count, and the
columns as 4-byte big-endian values in order; the total length is exactly
`64 + 32 * len(hashes) + 4 * len(columns)`, including for empty inputs. -/
theorem encode_decommitment_packed_layout (hs : List Digest) (cs : List Nat) :
    encode_decommitment_packed hs cs =
      toBEBytes 32 hs.length ++ (hs.map Subtype.val).flatten ++
        (toBEBytes 32 cs.length ++ (cs.map (toBEBytes 4)).flatten) ∧
    (encode_decommitment_packed hs cs).length =
      64 + 32 * hs.length + 4 * cs.length := by
  refine ⟨encode_decommitment_packed_eq hs cs, ?_⟩
  rw [encode_decommitment_packed_eq]
  simp only [List.length_append, toBEBytes_length, digest_flatten_length,
    be4_flatten_length]
  ring

/-- C5: the decomposition used throughout transcoding returns
`(first.real, first.imag, second.real, second.imag)` in that fixed order,
the transcoder's per-element conversion follows the same positional
convention, and rebuilding an element from the four integers restores the
original element. -/
theorem decompose_reconstruct (v : StwoQM31) :
    decompose v = (v.p0.a0, v.p0.a1, v.p1.a0, v.p1.a1) ∧
    solQM31 v =
      { first := { real := (decompose v).1, imag := (decompose v).2.1 }
        second := { real := (decompose v).2.2.1, imag := (decompose v).2.2.2 } } ∧
    reconstruct (decompose v) = v := by
  exact ⟨rfl, rfl, rfl⟩

/-! Helper lemmas about the bit-reversal permutation. -/

theorem bitRevIdx_lt (k i : Nat) : bitRevIdx k i < 2 ^ k := by
  induction k generalizing i with
  | zero => simp [bitRevIdx]
  | succ k ih =>
    have hrev := ih (i / 2)
    have hpow : (2 : Nat) ^ (k + 1) = 2 * 2 ^ k := by rw [pow_succ]; ring
    rcases Nat.mod_two_eq_zero_or_one i with h | h <;>
      simp only [bitRevIdx, h, hpow] <;> omega

theorem bitRevIdx_succ (k i : Nat) :
    bitRevIdx (k + 1) i = i % 2 * 2 ^ k + bitRevIdx k (i / 2) := rfl

theorem bitRevIdx_high_bit (k : Nat) : ∀ b r : Nat, b < 2 → r < 2 ^ k →
    bitRevIdx (k + 1) (b * 2 ^ k + r) = 2 * bitRevIdx k r + b := by
  induction k with
  | zero =>
    intro b r hb hr
    have hr0 : r = 0 := by omega
    subst hr0
    simp [bitRevIdx]
    omega
  | succ k ih =>
    intro b r hb hr
    have hpow : (2 : Nat) ^ (k + 1) = 2 * 2 ^ k := by rw [pow_succ]; ring
    have hr2 : r / 2 < 2 ^ k := by omega
    obtain rfl | rfl : b = 0 ∨ b = 1 := by omega
    · have ih0 := ih 0 (r / 2) (by omega) hr2
      simp only [Nat.zero_mul, Nat.zero_add, Nat.add_zero] at ih0 ⊢
      rw [bitRevIdx_succ (k + 1) r, bitRevIdx_succ k r, ih0, hpow]
      rcases Nat.mod_two_eq_zero_or_one r with h | h <;> rw [h] <;> omega
    · have ih1 := ih 1 (r / 2) (by omega) hr2
      have h1 : (1 * 2 ^ (k + 1) + r) % 2 = r % 2 := by omega
      have h2 : (1 * 2 ^ (k + 1) + r) / 2 = 1 * 2 ^ k + r / 2 := by omega
      rw [bitRevIdx_succ (k + 1) (1 * 2 ^ (k + 1) + r), h1, h2, ih1,
        bitRevIdx_succ k r, hpow]
      rcases Nat.mod_two_eq_zero_or_one r with h | h <;> rw [h] <;> omega

theorem bitRevIdx_bitRevIdx (k : Nat) : ∀ i : Nat, i < 2 ^ k →
    bitRevIdx k (bitRevIdx k i) = i := by
  induction k with
  | zero =>
    intro i hi
    have : i = 0 := by omega
    subst this
    rfl
  | succ k ih =>
    intro i hi
    have hpow : (2 : Nat) ^ (k + 1) = 2 * 2 ^ k := by rw [pow_succ]; ring
    have h1 : bitRevIdx (k + 1) i = i % 2 * 2 ^ k + bitRevIdx k (i / 2) := rfl
    have hrev : bitRevIdx k (i / 2) < 2 ^ k := bitRevIdx_lt k (i / 2)
    rw [h1, bitRevIdx_high_bit k (i % 2) (bitRevIdx k (i / 2)) (by omega) hrev,
      ih (i / 2) (by omega)]
    omega

theorem bitReverseList_length {α : Type} [Inhabited α] (k : Nat) (l : List α) :
    (bitReverseList k l).length = 2 ^ k := by
  simp [bitReverseList]

theorem bitReverseList_getD {α : Type} [Inhabited α] (k : Nat) (l : List α)
    (i : Nat) (hi : i < 2 ^ k) :
    (bitReverseList k l).getD i default = l.getD (bitRevIdx k i) default := by
  have hlen : i < (bitReverseList k l).length := by
    rw [bitReverseList_length]; exact hi
  rw [List.getD_eq_getElem _ _ hlen]
  simp [bitReverseList]

theorem log2_two_pow (k : Nat) : (2 ^ k).log2 = k := by
  rw [Nat.log2_eq_log_two, Nat.log_pow (by norm_num)]

theorem bit_reverse_of_length_pow {α : Type} [Inhabited α] (k : Nat)
    (l : List α) (h : l.length = 2 ^ k) :
    bit_reverse l = some (bitReverseList k l) := by
  rw [bit_reverse, h, log2_two_pow]
  simp

theorem bitReverseList_bitReverseList {α : Type} [Inhabited α] (k : Nat)
    (l : List α) (h : l.length = 2 ^ k) :
    bitReverseList k (bitReverseList k l) = l := by
  apply List.ext_getElem
  · rw [bitReverseList_length, h]
  · intro i h1 h2
    rw [bitReverseList_length] at h1
    have hb : bitRevIdx k i < 2 ^ k := bitRevIdx_lt k i
    rw [← List.getD_eq_getElem _ default h2,
      ← List.getD_eq_getElem _ default (by rw [bitReverseList_length]; exact h1 : i < (bitReverseList k (bitReverseList k l)).length),
      bitReverseList_getD k _ i h1, bitReverseList_getD k l (bitRevIdx k i) hb,
      bitRevIdx_bitRevIdx k i h1]

/-- C8: the bit-reversal permutation applied to the last-layer coefficients is
an involution — applied twice to any power-of-two-length sequence it returns
the original sequence, both for the permutation itself (`bitReverseList`) and
for the asserting wrapper `bit_reverse` as the transcoder invokes it. -/
theorem bit_reverse_involutive (k : Nat) (l : List StwoQM31)
    (h : l.length = 2 ^ k) :
    bitReverseList k (bitReverseList k l) = l ∧
    (bit_reverse l).bind bit_reverse = some l := by
  refine ⟨bitReverseList_bitReverseList k l h, ?_⟩
  rw [bit_reverse_of_length_pow k l h, Option.some_bind,
    bit_reverse_of_length_pow k _ (bitReverseList_length k l),
    bitReverseList_bitReverseList k l h]

/-! Helper lemmas about the verification-parameter builder. -/

theorem flatten_map_single {α β : Type} (f : α → β) (l : List α) :
    (l.map fun x => [f x]).flatten = l.map f := by
  induction l with
  | nil => rfl
  | cons x xs ih => simp [ih]

/-- The builder's push loop in closed form: it always returns `Ok`. -/
theorem prepare_verification_params_eq (comps : List Component) (n : Nat) :
    prepare_verification_params comps n =
      Except.ok
        { componentParams := comps.map mkComponentParams
          nPreprocessedColumns := n
          componentsCompositionLogDegreeBound := composition_log_degree_bound comps } := by
  unfold prepare_verification_params
  rw [foldl_append_eq_flatten (fun c => [mkComponentParams c]) comps [],
    flatten_map_single]
  rfl

/-- A sample component: two mask-offset trees and two preprocessed-column
references. -/
def compA : Component :=
  { max_constraint_log_degree_bound := 3
    log_size := 2
    mask_offsets := [[[0, 1]], [[-1, 0]]]
    preprocessed_columns := [(), ()]
    claimed_sum := ⟨⟨1, 2⟩, ⟨3, 4⟩⟩ }

/-- C1 counterexample: called with an empty component sequence, the builder
does not fail with an EmptyInput error; it returns `Ok` with a zero-valued
`VerificationParams`. -/
theorem prepare_empty_returns_ok :
    prepare_verification_params [] 0 =
      Except.ok
        { componentParams := []
          nPreprocessedColumns := 0
          componentsCompositionLogDegreeBound := 0 } := rfl

/-- C1 (amended): the builder has no failure path at all — for every
component sequence, empty or not, and every preprocessed-column count it
returns `Ok`, with one parameter record per component. -/
theorem prepare_verification_params_total (comps : List Component) (n : Nat) :
    ∃ vp : VerificationParams,
      prepare_verification_params comps n = Except.ok vp ∧
        vp.componentParams.length = comps.length := by
  exact ⟨_, prepare_verification_params_eq comps n, by simp⟩

/-- C2 counterexample: for a component carrying two preprocessed-column
references and `preprocessedColumnCount = 5`, the output enumerates
`[0, 1]` (the component's own list positions), not `0 .. 4` as the claim
demands. -/
theorem prepare_preprocessed_not_param_driven :
    (prepare_verification_params [compA] 5).toOption.map
        (fun vp => vp.componentParams.map fun p => p.info.preprocessedColumns) =
      some [[0, 1]] ∧ [[0, 1]] ≠ [List.range 5] := by
  exact ⟨rfl, by decide⟩

/-- C2 (amended): the `preprocessedColumns` field of each output record is
the index sequence `0 .. k-1` where `k` is the length of that component's own
`preprocessed_columns` list — positional enumeration driven by the
component's own data, independent of the `preprocessedColumnCount`
argument. -/
theorem prepare_preprocessedColumns (comps : List Component) (n : Nat)
    (vp : VerificationParams)
    (hok : prepare_verification_params comps n = Except.ok vp)
    (i : Nat) (hi : i < comps.length) (hi2 : i < vp.componentParams.length) :
    vp.componentParams[i].info.preprocessedColumns =
      List.range comps[i].preprocessed_columns.length := by
  rw [prepare_verification_params_eq] at hok
  obtain rfl := Except.ok.inj hok
  simp [List.getElem_map, mkComponentParams, mkComponentInfo, List.enum_map_fst]

/-- C7: the output records appear in input order, one per component, and the
`i`-th record's log size, claimed sum, max constraint log-degree bound, mask
offsets and preprocessed columns all come from the `i`-th input component
alone. -/
theorem prepare_componentParams_aligned (comps : List Component) (n : Nat)
    (hne : comps ≠ []) (vp : VerificationParams)
    (hok : prepare_verification_params comps n = Except.ok vp) :
    vp.componentParams.length = comps.length ∧
    ∀ i (h1 : i < vp.componentParams.length) (h2 : i < comps.length),
      vp.componentParams[i].logSize = comps[i].log_size ∧
      vp.componentParams[i].claimedSum = solQM31 comps[i].claimed_sum ∧
      vp.componentParams[i].info.maxConstraintLogDegreeBound =
        comps[i].max_constraint_log_degree_bound ∧
      vp.componentParams[i].info.logSize = comps[i].log_size ∧
      vp.componentParams[i].info.maskOffsets =
        comps[i].mask_offsets.map (fun tree => tree.map fun col => col.map castI32) ∧
      vp.componentParams[i].info.preprocessedColumns =
        List.range comps[i].preprocessed_columns.length := by
  rw [prepare_verification_params_eq] at hok
  obtain rfl := Except.ok.inj hok
  refine ⟨by simp, ?_⟩
  intro i h1 h2
  simp [List.getElem_map, mkComponentParams, mkComponentInfo, List.enum_map_fst]

/-- C9: every mask offset is converted by `castI32` — truncation to the low
32 bits reinterpreted as a signed 32-bit value, with no range check and no
failure path — and the converted value equals the original exactly when the
original lies in the signed 32-bit range. -/
theorem maskOffsets_cast_semantics :
    (∀ (comps : List Component) (n : Nat),
      (prepare_verification_params comps n).toOption.map
          (fun vp => vp.componentParams.map fun p => p.info.maskOffsets) =
        some (comps.map fun c =>
          c.mask_offsets.map fun tree => tree.map fun col => col.map castI32)) ∧
    (∀ x : Int,
      x % 2 ^ 32 = castI32 x % 2 ^ 32 ∧
        -(2 ^ 31) ≤ castI32 x ∧ castI32 x < 2 ^ 31) ∧
    (∀ x : Int, castI32 x = x ↔ -(2 ^ 31) ≤ x ∧ x < 2 ^ 31) := by
  have h32 : (2 : Int) ^ 32 = 4294967296 := by norm_num
  have h31 : (2 : Int) ^ 31 = 2147483648 := by norm_num
  refine ⟨?_, ?_, ?_⟩
  · intro comps n
    rw [prepare_verification_params_eq]
    show some _ = some _
    rw [Option.some_inj]
    simp [List.map_map, mkComponentParams, mkComponentInfo, Function.comp]
  · intro x
    simp only [castI32, h32, h31]
    split <;> omega
  · intro x
    simp only [castI32, h32, h31]
    split <;> omega

/-! Helper lemmas about the proof transcoder. -/

instance : Inhabited CM31 := ⟨⟨0, 0⟩⟩

instance : Inhabited QM31 := ⟨⟨⟨0, 0⟩, ⟨0, 0⟩⟩⟩

/-- The transcoder in closed form on the success path: when the last-layer
coefficient count is a power of two and at least four coordinate arrays are
present, it returns exactly this record (extra coordinate arrays are
ignored). -/
theorem convert_eq_some (p : StarkProof) (cp : List (List Nat)) (k : Nat)
    (hlen : p.fri_proof.last_layer_poly.length = 2 ^ k)
    (h4 : 4 ≤ cp.length) :
    convert_to_solidity_proof p cp =
      some
        { config := p.config
          commitments := p.commitments
          sampledValues :=
            p.sampled_values.map fun column => column.map fun row => row.map solQM31
          decommitments :=
            p.decommitments.map fun decom =>
              { hashWitness := decom.hash_witness
                columnWitness := decom.column_witness }
          queriedValues := p.queried_values
          proofOfWork := p.proof_of_work
          friProof :=
            { innerLayers := p.fri_proof.inner_layers.map solFriLayer
              lastLayerPoly :=
                (bitReverseList k p.fri_proof.last_layer_poly).map solQM31
              firstLayer := solFriLayer p.fri_proof.first_layer }
          compositionPoly :=
            { coeffs0 := cp[0], coeffs1 := cp[1], coeffs2 := cp[2],
              coeffs3 := cp[3] } } := by
  unfold convert_to_solidity_proof
  rw [bit_reverse_of_length_pow k _ hlen,
    List.getElem?_eq_getElem (show 0 < cp.length by omega),
    List.getElem?_eq_getElem (show 1 < cp.length by omega),
    List.getElem?_eq_getElem (show 2 < cp.length by omega),
    List.getElem?_eq_getElem (show 3 < cp.length by omega)]

/-- The transcoder in closed form on the short path: with fewer than four
coordinate arrays the out-of-bounds indexing panic is reached (modelled as
`none`). -/
theorem convert_eq_none_of_short (p : StarkProof) (cp : List (List Nat))
    (k : Nat) (hlen : p.fri_proof.last_layer_poly.length = 2 ^ k)
    (hlt : cp.length < 4) :
    convert_to_solidity_proof p cp = none := by
  have h3 : cp[3]? = none := by
    rw [List.getElem?_eq_none]
    omega
  unfold convert_to_solidity_proof
  rw [bit_reverse_of_length_pow k _ hlen, h3]
  rcases h0 : cp[0]? with _ | c0 <;> rcases h1 : cp[1]? with _ | c1 <;>
    rcases h2 : cp[2]? with _ | c2 <;> rfl

/-- A sample extension-field element. -/
def q0 : StwoQM31 := ⟨⟨5, 6⟩, ⟨7, 8⟩⟩

/-- A sample digest. -/
def d0 : Digest := ⟨List.replicate 32 0, by simp⟩

/-- A small but fully populated stwo proof whose last-layer polynomial has
`1 = 2 ^ 0` coefficient. -/
def p0 : StarkProof :=
  { config :=
      { pow_bits := 10
        fri_config :=
          { log_blowup_factor := 1, log_last_layer_degree_bound := 1,
            n_queries := 3 } }
    commitments := [d0]
    sampled_values := [[[q0]]]
    decommitments := [{ hash_witness := [d0], column_witness := [9] }]
    queried_values := [[1, 2]]
    proof_of_work := 42
    fri_proof :=
      { first_layer :=
          { fri_witness := [q0]
            decommitment := { hash_witness := [], column_witness := [] }
            commitment := d0 }
        inner_layers := []
        last_layer_poly := [q0] } }

/-- C3 counterexample: given five coordinate arrays, transcoding does not
fail at all — it succeeds and silently drops the fifth array; and given
three arrays it hits an untagged out-of-bounds panic (`none`), not a tagged
StructuralMismatch error (the Rust function returns a bare `Proof` and has
no tagged error channel). -/
theorem convert_wrong_arity_not_tagged :
    (convert_to_solidity_proof p0 [[1], [2], [3], [4], [5]]).map
        (fun pf => pf.compositionPoly) =
      some { coeffs0 := [1], coeffs1 := [2], coeffs2 := [3], coeffs3 := [4] } ∧
    convert_to_solidity_proof p0 [[1], [2], [3]] = none := by
  constructor
  · rw [convert_eq_some p0 _ 0 rfl (by norm_num)]
    rfl
  · exact convert_eq_none_of_short p0 _ 0 rfl (by norm_num)

/-- C3 (amended): transcoding has no tagged structural error for a coordinate
array count other than four — with fewer than four arrays it reaches an
untagged out-of-bounds panic (modelled as `none`), and with four or more it
succeeds, silently using only the first four arrays. -/
theorem convert_composition_arity (p : StarkProof) (cp : List (List Nat))
    (k : Nat) (hlen : p.fri_proof.last_layer_poly.length = 2 ^ k) :
    (cp.length < 4 → convert_to_solidity_proof p cp = none) ∧
    (4 ≤ cp.length →
      ∃ pf, convert_to_solidity_proof p cp = some pf ∧
        pf.compositionPoly =
          { coeffs0 := cp.getD 0 [], coeffs1 := cp.getD 1 [],
            coeffs2 := cp.getD 2 [], coeffs3 := cp.getD 3 [] }) := by
  constructor
  · exact convert_eq_none_of_short p cp k hlen
  · intro h4
    refine ⟨_, convert_eq_some p cp k hlen h4, ?_⟩
    simp only [List.getD_eq_getElem cp [] (show 0 < cp.length by omega),
      List.getD_eq_getElem cp [] (show 1 < cp.length by omega),
      List.getD_eq_getElem cp [] (show 2 < cp.length by omega),
      List.getD_eq_getElem cp [] (show 3 < cp.length by omega)]

/-- The transcoded form of `p0` with coordinate arrays `[[1],[2],[3],[4]]`. -/
def pf0 : SolProof :=
  { config := p0.config
    commitments := [d0]
    sampledValues := [[[solQM31 q0]]]
    decommitments := [{ hashWitness := [d0], columnWitness := [9] }]
    queriedValues := [[1, 2]]
    proofOfWork := 42
    friProof :=
      { innerLayers := []
        lastLayerPoly := [solQM31 q0]
        firstLayer := solFriLayer p0.fri_proof.first_layer }
    compositionPoly := { coeffs0 := [1], coeffs1 := [2], coeffs2 := [3], coeffs3 := [4] } }

theorem convert_p0_eq : convert_to_solidity_proof p0 [[1], [2], [3], [4]] = some pf0 := by
  rw [convert_eq_some p0 _ 0 rfl (by norm_num)]
  rfl

/-- C3 witness: the amended claim instantiated at the sample proof with three
and with five coordinate arrays. -/
theorem convert_composition_arity_witness :
    convert_to_solidity_proof p0 [[1], [2], [3]] = none ∧
    ∃ pf, convert_to_solidity_proof p0 [[1], [2], [3], [4], [5]] = some pf ∧
      pf.compositionPoly =
        { coeffs0 := [1], coeffs1 := [2], coeffs2 := [3], coeffs3 := [4] } :=
  ⟨(convert_composition_arity p0 [[1], [2], [3]] 0 rfl).1 (by norm_num),
    (convert_composition_arity p0 [[1], [2], [3], [4], [5]] 0 rfl).2 (by norm_num)⟩

/-- C6: in any successful transcoding of a proof whose last-layer polynomial
has `2 ^ k` coefficients, `lastLayerPoly` is the canonical coefficient
sequence permuted by bit reversal and then decomposed element-wise; in
particular entry `i` is the decomposition of canonical coefficient
`bitRevIdx k i`. -/
theorem convert_lastLayerPoly_bit_reversed (p : StarkProof)
    (cp : List (List Nat)) (k : Nat)
    (hlen : p.fri_proof.last_layer_poly.length = 2 ^ k)
    (pf : SolProof) (hok : convert_to_solidity_proof p cp = some pf) :
    pf.friProof.lastLayerPoly =
      (bitReverseList k p.fri_proof.last_layer_poly).map solQM31 ∧
    ∀ i, i < 2 ^ k →
      pf.friProof.lastLayerPoly.getD i default =
        solQM31 (p.fri_proof.last_layer_poly.getD (bitRevIdx k i) default) := by
  have h4 : 4 ≤ cp.length := by
    by_contra h
    rw [convert_eq_none_of_short p cp k hlen (by omega)] at hok
    exact Option.noConfusion hok
  rw [convert_eq_some p cp k hlen h4] at hok
  obtain rfl := Option.some.inj hok
  refine ⟨rfl, ?_⟩
  intro i hi
  have hml : i < ((bitReverseList k p.fri_proof.last_layer_poly).map solQM31).length := by
    rw [List.length_map, bitReverseList_length]
    exact hi
  have hbl : i < (bitReverseList k p.fri_proof.last_layer_poly).length := by
    rw [bitReverseList_length]
    exact hi
  show ((bitReverseList k p.fri_proof.last_layer_poly).map solQM31).getD i default = _
  rw [List.getD_eq_getElem _ default hml, List.getElem_map,
    ← List.getD_eq_getElem _ default hbl,
    bitReverseList_getD k _ i hi]

/-- C6 witness: the claim instantiated at the sample proof, with the
pointwise part taken at index 0. -/
theorem convert_lastLayerPoly_bit_reversed_witness :
    pf0.friProof.lastLayerPoly =
      (bitReverseList 0 p0.fri_proof.last_layer_poly).map solQM31 ∧
    pf0.friProof.lastLayerPoly.getD 0 default =
      solQM31 (p0.fri_proof.last_layer_poly.getD (bitRevIdx 0 0) default) :=
  ⟨(convert_lastLayerPoly_bit_reversed p0 [[1], [2], [3], [4]] 0 rfl pf0
      convert_p0_eq).1,
    (convert_lastLayerPoly_bit_reversed p0 [[1], [2], [3], [4]] 0 rfl pf0
      convert_p0_eq).2 0 (by norm_num)⟩

/-! Injectivity of the packed encoding. -/

theorem flatten_blocks_inj (m : Nat) (hm : 0 < m) :
    ∀ l1 l2 : List (List Nat), (∀ x ∈ l1, x.length = m) →
      (∀ x ∈ l2, x.length = m) → l1.flatten = l2.flatten → l1 = l2 := by
  intro l1
  induction l1 with
  | nil =>
    intro l2 _ h2 heq
    cases l2 with
    | nil => rfl
    | cons y ys =>
      exfalso
      simp only [List.flatten_nil, List.flatten_cons] at heq
      obtain ⟨hy, -⟩ := List.append_eq_nil.mp heq.symm
      have := h2 y (by simp)
      rw [hy] at this
      simp at this
      omega
  | cons x xs ih =>
    intro l2 h1 h2 heq
    cases l2 with
    | nil =>
      exfalso
      simp only [List.flatten_cons, List.flatten_nil] at heq
      obtain ⟨hx, -⟩ := List.append_eq_nil.mp heq
      have := h1 x (by simp)
      rw [hx] at this
      simp at this
      omega
    | cons y ys =>
      simp only [List.flatten_cons] at heq
      have hx := h1 x (by simp)
      have hy := h2 y (by simp)
      obtain ⟨hxy, hrest⟩ := List.append_inj heq (by rw [hx, hy])
      rw [hxy, ih ys (fun z hz => h1 z (by simp [hz])) (fun z hz => h2 z (by simp [hz])) hrest]

theorem digest_flatten_inj (hs1 hs2 : List Digest)
    (heq : (hs1.map Subtype.val).flatten = (hs2.map Subtype.val).flatten) :
    hs1 = hs2 := by
  have hmaps := flatten_blocks_inj 32 (by norm_num) (hs1.map Subtype.val)
    (hs2.map Subtype.val)
    (by
      intro x hx
      obtain ⟨d, -, rfl⟩ := List.mem_map.mp hx
      exact d.property)
    (by
      intro x hx
      obtain ⟨d, -, rfl⟩ := List.mem_map.mp hx
      exact d.property)
    heq
  exact List.map_injective_iff.mpr Subtype.val_injective hmaps

theorem be4_map_inj : ∀ c1 c2 : List Nat, (∀ v ∈ c1, v < 2 ^ 32) →
    (∀ v ∈ c2, v < 2 ^ 32) → c1.map (toBEBytes 4) = c2.map (toBEBytes 4) →
    c1 = c2 := by
  have hp : (256 : Nat) ^ 4 = 2 ^ 32 := by norm_num
  intro c1
  induction c1 with
  | nil =>
    intro c2 _ _ h
    cases c2 with
    | nil => rfl
    | cons w ws => simp at h
  | cons v vs ih =>
    intro c2 h1 h2 h
    cases c2 with
    | nil => simp at h
    | cons w ws =>
      simp only [List.map_cons, List.cons.injEq] at h
      have hv : v = w :=
        toBEBytes_inj (by rw [hp]; exact h1 v (by simp))
          (by rw [hp]; exact h2 w (by simp)) h.1
      rw [hv, ih ws (fun z hz => h1 z (by simp [hz])) (fun z hz => h2 z (by simp [hz])) h.2]

/-- C10: the packed encoding is injective — equal output byte sequences force
equal inputs, because the two 32-byte length prefixes fully determine the
partition of the remaining bytes (hash counts and column counts below
`2 ^ 256` as `usize` values always are, and column values in `u32` range). -/
theorem encode_decommitment_packed_injective (hs1 hs2 : List Digest)
    (cs1 cs2 : List Nat)
    (hl1 : hs1.length < 256 ^ 32) (hl2 : hs2.length < 256 ^ 32)
    (hv1 : ∀ v ∈ cs1, v < 2 ^ 32) (hv2 : ∀ v ∈ cs2, v < 2 ^ 32)
    (heq : encode_decommitment_packed hs1 cs1 = encode_decommitment_packed hs2 cs2) :
    hs1 = hs2 ∧ cs1 = cs2 := by
  rw [encode_decommitment_packed_eq hs1 cs1, encode_decommitment_packed_eq hs2 cs2,
    List.append_assoc, List.append_assoc] at heq
  obtain ⟨ha, heq2⟩ :=
    List.append_inj heq (by rw [toBEBytes_length, toBEBytes_length])
  have hlen12 : hs1.length = hs2.length := toBEBytes_inj hl1 hl2 ha
  obtain ⟨hb, heq3⟩ :=
    List.append_inj heq2
      (by rw [digest_flatten_length, digest_flatten_length, hlen12])
  have hdig : hs1 = hs2 := digest_flatten_inj hs1 hs2 hb
  obtain ⟨hc, heq4⟩ :=
    List.append_inj heq3 (by rw [toBEBytes_length, toBEBytes_length])
  have hmap : cs1.map (toBEBytes 4) = cs2.map (toBEBytes 4) :=
    flatten_blocks_inj 4 (by norm_num) _ _
      (by
        intro x hx
        obtain ⟨v, -, rfl⟩ := List.mem_map.mp hx
        exact toBEBytes_length 4 v)
      (by
        intro x hx
        obtain ⟨v, -, rfl⟩ := List.mem_map.mp hx
        exact toBEBytes_length 4 v)
      heq4
  exact ⟨hdig, be4_map_inj cs1 cs2 hv1 hv2 hmap⟩

/-- C10 witness: the injectivity theorem instantiated at a concrete pair of
equal encodings. -/
theorem encode_decommitment_packed_injective_witness :
    ([d0] : List Digest) = [d0] ∧ ([7] : List Nat) = [7] :=
  encode_decommitment_packed_injective [d0] [d0] [7] [7]
    (by norm_num) (by norm_num)
    (by intro v hv; simp at hv; omega) (by intro v hv; simp at hv; omega) rfl

/-! Remaining witness instantiations. -/

/-- The verification parameters actually produced for `[compA]` with
preprocessed-column count 5. -/
def vpA : VerificationParams :=
  { componentParams := [mkComponentParams compA]
    nPreprocessedColumns := 5
    componentsCompositionLogDegreeBound := 3 }

theorem prepare_compA_eq : prepare_verification_params [compA] 5 = Except.ok vpA := by
  rw [prepare_verification_params_eq]
  rfl

/-- C2 witness: the amended claim instantiated at the sample component. -/
theorem prepare_preprocessedColumns_witness :
    (vpA.componentParams.get ⟨0, by decide⟩).info.preprocessedColumns =
      List.range compA.preprocessed_columns.length :=
  prepare_preprocessedColumns [compA] 5 vpA prepare_compA_eq 0 (by decide) (by decide)

/-- C7 witness: the alignment claim instantiated at the sample component. -/
theorem prepare_componentParams_aligned_witness :
    vpA.componentParams.length = ([compA] : List Component).length ∧
    (vpA.componentParams.get ⟨0, by decide⟩).logSize = compA.log_size ∧
    (vpA.componentParams.get ⟨0, by decide⟩).claimedSum = solQM31 compA.claimed_sum ∧
    (vpA.componentParams.get ⟨0, by decide⟩).info.maxConstraintLogDegreeBound =
      compA.max_constraint_log_degree_bound ∧
    (vpA.componentParams.get ⟨0, by decide⟩).info.maskOffsets =
      compA.mask_offsets.map (fun tree => tree.map fun col => col.map castI32) ∧
    (vpA.componentParams.get ⟨0, by decide⟩).info.preprocessedColumns =
      List.range compA.preprocessed_columns.length :=
  have h := prepare_componentParams_aligned [compA] 5 (by simp) vpA prepare_compA_eq
  ⟨h.1, (h.2 0 (by decide) (by decide)).1, (h.2 0 (by decide) (by decide)).2.1,
    (h.2 0 (by decide) (by decide)).2.2.1, (h.2 0 (by decide) (by decide)).2.2.2.2.1,
    (h.2 0 (by decide) (by decide)).2.2.2.2.2⟩

/-- A sample power-of-two-length coefficient sequence. -/
def l4 : List StwoQM31 :=
  [⟨⟨1, 0⟩, ⟨0, 0⟩⟩, ⟨⟨2, 0⟩, ⟨0, 0⟩⟩, ⟨⟨3, 0⟩, ⟨0, 0⟩⟩, ⟨⟨4, 0⟩, ⟨0, 0⟩⟩]

/-- C8 witness: the involution claim instantiated at a length-4 sequence. -/
theorem bit_reverse_involutive_witness :
    bitReverseList 2 (bitReverseList 2 l4) = l4 ∧
    (bit_reverse l4).bind bit_reverse = some l4 :=
  bit_reverse_involutive 2 l4 rfl

end StwoSol
